import Mathlib

/-!
Verification development for the allocation engine of an internship
matching backend.  The Python sources are shallowly embedded: Python
floats become rationals, SQL tables become lists of records, dictionary
state becomes explicit state passing, and the external linear-assignment
solver becomes a parameter whose output is a list of index pairs.
The embedded functions keep the names of the source functions where
Lean allows it.
-/

namespace SIH

/-! ## Utility functions from backend/app/allocation.py -/

/-- The comma-to-space substitution applied before tokenizing. -/
def commaToSpace (c : Char) : Char := if c = ',' then ' ' else c

/-- Whitespace splitting as the Python argument-free split does it:
maximal non-whitespace chunks, empty chunks never produced.  The second
argument accumulates the current chunk in reverse. -/
def splitTokensAux : List Char → List Char → List (List Char)
  | [], cur => if cur = [] then [] else [cur.reverse]
  | c :: rest, cur =>
    if c.isWhitespace then
      if cur = [] then splitTokensAux rest []
      else cur.reverse :: splitTokensAux rest []
    else splitTokensAux rest (c :: cur)

/-- Tokens of a text: replace commas by spaces, split on whitespace,
lowercase (the strip of the source is a no-op on whitespace-free
chunks). -/
def pyTokens (s : String) : List String :=
  (splitTokensAux (s.data.map commaToSpace) []).map
    (fun cs => String.mk (cs.map Char.toLower))

/-- Token set used by the jaccard function. -/
def pyTokenSet (s : String) : Finset String := (pyTokens s).toFinset

/-- Embedding of jaccard in allocation.py: returns 0 if either text is
empty (Python falsiness) or either token set is empty, otherwise the
ratio of intersection size over union size. -/
def jaccard (text_a text_b : String) : ℚ :=
  if text_a = "" ∨ text_b = "" then 0
  else if pyTokenSet text_a = ∅ ∨ pyTokenSet text_b = ∅ then 0
  else ((pyTokenSet text_a ∩ pyTokenSet text_b).card : ℚ) /
    ((pyTokenSet text_a ∪ pyTokenSet text_b).card : ℚ)

/-- Embedding of norm in allocation.py: None maps to 0, a degenerate
band maps to 0, otherwise the value is linearly rescaled and clamped to
the unit interval. -/
def norm (x : Option ℚ) (lo hi : ℚ) : ℚ :=
  match x with
  | none => 0
  | some v => if hi = lo then 0 else max 0 (min 1 ((v - lo) / (hi - lo)))

/-- Embedding of the Python round(x, 4) applied before persisting a
final score (ties at the fourth decimal differ between Python
half-to-even and this rounding, which is irrelevant to every statement
below). -/
def round4 (x : ℚ) : ℚ := ((round (x * 10000) : ℤ) : ℚ) / 10000

/-! ## Data model (SQL tables as records) -/

/-- A row of the student table, as read by the allocation queries.
Python None for text fields is modelled by the empty string, which has
the same falsiness behaviour in every guard of the source. -/
structure Student where
  student_id : ℕ
  email : String
  cgpa : Option ℚ
  location_pref : String
  skills_text : String
  deriving DecidableEq, Repr

/-- A row of the internship table as loaded into job_info. -/
structure Internship where
  internship_id : ℕ
  location : String
  capacity : ℕ
  req_skills_text : String
  min_cgpa : ℚ
  is_active : Bool
  deriving DecidableEq, Repr

/-- A row of the alloc_run table; runs are listed in creation order, so
ORDER BY created_at DESC LIMIT 1 is the last element of the filtered
list. -/
structure AllocRun where
  run_id : ℕ
  success : Bool
  deriving DecidableEq, Repr

/-- A row of the match_result table. -/
structure MatchRow where
  run_id : ℕ
  student_id : ℕ
  internship_id : ℕ
  final_score : ℚ
  deriving DecidableEq, Repr

/-- The database state read by one allocation invocation. -/
structure DB where
  students : List Student
  internships : List Internship
  runs : List AllocRun
  match_rows : List MatchRow
  deriving Repr

/-- The rows returned by the join of match_result with alloc_run
filtered on status SUCCESS: note that the source query joins on run_id
with no restriction to the latest run. -/
def successMatches (db : DB) : List MatchRow :=
  db.match_rows.filter
    (fun m => db.runs.any (fun r => r.run_id = m.run_id ∧ r.success))

/-- The frozen-student projection built by step 2 of run_allocation in
allocation.py (and, under respect_existing, of run_ensemble_allocation):
the student ids of every SUCCESS-run match row. -/
def frozenStudents (db : DB) : Finset ℕ :=
  ((successMatches db).map (fun m => m.student_id)).toFinset

/-- The per-internship consumed-capacity count built by step 2 of
run_allocation: the number of SUCCESS-run match rows naming the
internship. -/
def usedByInternship (db : DB) (iid : ℕ) : ℕ :=
  (successMatches db).countP (fun m => m.internship_id = iid)

/-- The run id selected by the latest-successful-run query (computed by
both entry points and then never used to restrict the freeze query). -/
def latestSuccessRunId (db : DB) : Option ℕ :=
  ((db.runs.filter (fun r => r.success)).getLast?).map (fun r => r.run_id)

/-- Modelled from the spec: the frozen set the specification describes,
namely the student ids of the match rows tied to the single most recent
SUCCESS run.  Declared only to compare with frozenStudents, the
projection the code actually builds. -/
def specLatestFrozenStudents (db : DB) : Finset ℕ :=
  match latestSuccessRunId db with
  | none => ∅
  | some rid =>
      ((db.match_rows.filter (fun m => m.run_id = rid)).map
        (fun m => m.student_id)).toFinset

/-- Modelled from the spec: the per-position consumed count the
specification describes, over the most recent SUCCESS run only. -/
def specLatestUsed (db : DB) (iid : ℕ) : ℕ :=
  match latestSuccessRunId db with
  | none => 0
  | some rid =>
      (db.match_rows.filter (fun m => m.run_id = rid)).countP
        (fun m => m.internship_id = iid)

/-- Remaining capacity of an internship as computed in step 3 of
run_allocation: capacity minus the consumed count, floored at zero
(natural subtraction), with no dependence on the respect_existing
flag. -/
def allocRemaining (db : DB) (j : Internship) : ℕ :=
  j.capacity - usedByInternship db j.internship_id

/-- Active internships, as returned by the internship query. -/
def activeJobs (db : DB) : List Internship :=
  db.internships.filter (fun j => j.is_active)

/-- The open jobs of step 6 of run_allocation: active internships with
positive remaining capacity (remaining computed without consulting
respect_existing). -/
def allocOpenJobs (db : DB) : List Internship :=
  (activeJobs db).filter (fun j => 0 < allocRemaining db j)

/-- The frozen set consulted by run_ensemble_allocation, which guards
the freeze query on respect_existing. -/
def ensembleFrozen (db : DB) (re : Bool) : Finset ℕ :=
  if re then frozenStudents db else ∅

/-- The consumed count consulted by run_ensemble_allocation. -/
def ensembleUsed (db : DB) (re : Bool) (iid : ℕ) : ℕ :=
  if re then usedByInternship db iid else 0

/-- Remaining capacity in the ensemble path. -/
def ensembleRemaining (db : DB) (re : Bool) (j : Internship) : ℕ :=
  j.capacity - ensembleUsed db re j.internship_id

/-- Open jobs in the ensemble path. -/
def ensembleOpenJobs (db : DB) (re : Bool) : List Internship :=
  (activeJobs db).filter (fun j => 0 < ensembleRemaining db re j)

/-! ## Scope handling and student eligibility -/

/-- The Python strip: drop leading and trailing whitespace. -/
def pyStrip (s : String) : String :=
  String.mk
    (((s.data.dropWhile Char.isWhitespace).reverse.dropWhile
      Char.isWhitespace).reverse)

/-- Embedding of the scope cleaning line: strip every entry and keep
the non-blank ones. -/
def cleanScope (scope : Option (List String)) : List String :=
  ((scope.getD []).map pyStrip).filter (fun e => e ≠ "")

/-- The emails bind parameter: set only when the cleaned scope list is
non-empty (the source guards the IN clause with the truthiness of the
cleaned list). -/
def emailsParam (scope : Option (List String)) : Option (List String) :=
  if (cleanScope scope).isEmpty then none else some (cleanScope scope)

/-- Condition of the dead short-circuit branch: the emails parameter is
present yet holds an empty tuple. -/
def emptyScopeShortCircuit (scope : Option (List String)) : Bool :=
  match emailsParam scope with
  | some es => es.isEmpty
  | none => false

/-- The WHERE clause of the student query in run_allocation: scope
restriction when the emails parameter is set, and frozen exclusion only
when the frozen set is non-empty and respect_existing is on. -/
def allocStudentWhere (db : DB) (scope : Option (List String)) (re : Bool)
    (s : Student) : Bool :=
  (match emailsParam scope with
   | some es => s.email ∈ es
   | none => true) &&
  (if (frozenStudents db) ≠ ∅ ∧ re then s.student_id ∉ frozenStudents db
   else true)

/-- Eligible students fetched by step 5 of run_allocation. -/
def allocEligible (db : DB) (scope : Option (List String)) (re : Bool) :
    List Student :=
  db.students.filter (allocStudentWhere db scope re)

/-- The WHERE clause of the student query in run_ensemble_allocation
(identical shape, but against the ensemble frozen set). -/
def ensembleStudentWhere (db : DB) (scope : Option (List String)) (re : Bool)
    (s : Student) : Bool :=
  (match emailsParam scope with
   | some es => s.email ∈ es
   | none => true) &&
  (if (ensembleFrozen db re) ≠ ∅ ∧ re then s.student_id ∉ ensembleFrozen db re
   else true)

/-- Eligible students in the ensemble path. -/
def ensembleEligible (db : DB) (scope : Option (List String)) (re : Bool) :
    List Student :=
  db.students.filter (ensembleStudentWhere db scope re)

/-! ## Pairwise scoring (Hungarian path) -/

/-- The three caller-supplied signal weights. -/
structure Weights where
  skill : ℚ
  location : ℚ
  cgpa : ℚ
  deriving DecidableEq, Repr

/-- Default weights of both entry points. -/
def defaultWeights : Weights := ⟨13/20, 1/5, 3/20⟩

/-- The CGPA eligibility gate: a pair is eligible when the CGPA is
unknown or at least the minimum. -/
def cgOk (s : Student) (j : Internship) : Bool :=
  s.cgpa = none ∨ j.min_cgpa ≤ s.cgpa.getD 0

/-- The skill signal of the Hungarian path: jaccard between the student
skills text (None coerced to the empty string) and the required-skills
text. -/
def skillSignal (s : Student) (j : Internship) : ℚ :=
  jaccard s.skills_text j.req_skills_text

/-- The CGPA signal: the 6.0 to 9.5 normalization, applied only when
the internship declares a positive minimum CGPA; at the call site a
None CGPA has already been replaced by 0.0. -/
def cgpaSignal (s : Student) (j : Internship) : ℚ :=
  if 0 < j.min_cgpa then norm (some (s.cgpa.getD 0)) 6 (19/2) else 0

/-- The location signal: 1 on a case-insensitive exact match of
non-empty strings, 0 otherwise. -/
def locSignal (s : Student) (j : Internship) : ℚ :=
  if s.location_pref ≠ "" ∧ j.location ≠ "" ∧
      s.location_pref.toLower = j.location.toLower then 1 else 0

/-- Score of one (student, internship) pair as written into the score
matrix of run_allocation: zero when the CGPA gate fails, otherwise the
weighted sum of the three signals. -/
def pairScoreAlloc (w : Weights) (s : Student) (j : Internship) : ℚ :=
  if cgOk s j then
    w.skill * skillSignal s j + w.location * locSignal s j +
      w.cgpa * cgpaSignal s j
  else 0

/-! ## Slot expansion and the padded score matrix -/

/-- Default student used only to give list indexing a total type; the
pipelines index only within bounds. -/
def defaultStudent : Student := ⟨0, "", none, "", ""⟩

/-- Default internship for out-of-range indexing. -/
def defaultJob : Internship := ⟨0, "", 0, "", 0, false⟩

/-- Slot expansion: each open job contributes one copy of its record per
unit of remaining capacity, in job order. -/
def jobSlots (jobs : List Internship) (rem : Internship → ℕ) :
    List Internship :=
  (jobs.map (fun j => List.replicate (rem j) j)).flatten

/-- The padded score matrix of step 7: entry (i, j) holds the pair score
for real indices and 0 on padding rows and columns (np.zeros). -/
def scoreMatrix (w : Weights) (students : List Student)
    (slots : List Internship) (i j : ℕ) : ℚ :=
  if i < students.length ∧ j < slots.length then
    pairScoreAlloc w (students.getD i defaultStudent) (slots.getD j defaultJob)
  else 0

/-- The maximum entry of the padded matrix, defaulting to 1 when no
entry is positive (step 7 of run_allocation). -/
def maxScoreOf (P : ℕ) (score : ℕ → ℕ → ℚ) : ℚ :=
  let m := ((List.range P).map
    (fun i => ((List.range P).map (score i)).foldr max 0)).foldr max 0
  if 0 < m then m else 1

/-- The cost matrix handed to the linear-assignment solver. -/
def costMatrix (P : ℕ) (score : ℕ → ℕ → ℚ) (i j : ℕ) : ℚ :=
  maxScoreOf P score - score i j

/-! ## Dictionary extraction of solver output -/

/-- Insertion into a Python dict modelled as an association list: an
existing key keeps its position and gets the new value, a fresh key is
appended. -/
def insertAssoc (l : List (ℕ × ℕ × ℚ)) (k : ℕ) (v : ℕ × ℚ) :
    List (ℕ × ℕ × ℚ) :=
  if l.any (fun p => p.1 = k) then
    l.map (fun p => if p.1 = k then (k, v) else p)
  else l ++ [(k, v.1, v.2)]

/-- One iteration of the post-solve extraction loop of run_allocation:
pairs touching padding rows or columns, and pairs with non-positive
score, are skipped; surviving pairs are written into the assigned
dict keyed by student id. -/
def extractStep (S J : ℕ) (score : ℕ → ℕ → ℚ) (sidOf jidOf : ℕ → ℕ)
    (acc : List (ℕ × ℕ × ℚ)) (p : ℕ × ℕ) : List (ℕ × ℕ × ℚ) :=
  if p.1 < S ∧ p.2 < J ∧ 0 < score p.1 p.2 then
    insertAssoc acc (sidOf p.1) (jidOf p.2, score p.1 p.2)
  else acc

/-- The assigned dict built from the solver output: a list of
(student id, internship id, score) triples. -/
def extractAssigned (S J : ℕ) (score : ℕ → ℕ → ℚ) (sidOf jidOf : ℕ → ℕ)
    (pairs : List (ℕ × ℕ)) : List (ℕ × ℕ × ℚ) :=
  pairs.foldl (extractStep S J score sidOf jidOf) []

/-! ## Greedy allocation (ensemble path) -/

/-- One step of the greedy sweep of run_ensemble_allocation: skip a pair
whose student is already assigned or whose internship has no remaining
slot, otherwise assign and decrement.  The payload type carries the
component breakdown of the pair. -/
def greedyStep {α : Type} (st : List (ℕ × ℕ × ℚ × α) × (ℕ → ℕ))
    (p : ℚ × ℕ × ℕ × α) : List (ℕ × ℕ × ℚ × α) × (ℕ → ℕ) :=
  let score := p.1
  let sid := p.2.1
  let jid := p.2.2.1
  if st.1.any (fun e => e.1 = sid) then st
  else if st.2 jid = 0 then st
  else (st.1 ++ [(sid, jid, score, p.2.2.2)],
        fun j => if j = jid then st.2 jid - 1 else st.2 j)

/-- The greedy allocation over a (sorted) pair list with an initial
remaining-capacity map. -/
def greedyAlloc {α : Type} (pairs : List (ℚ × ℕ × ℕ × α)) (rem0 : ℕ → ℕ) :
    List (ℕ × ℕ × ℚ × α) :=
  (pairs.foldl greedyStep ([], rem0)).1

/-! ## Per-position match counts -/

/-- Number of rows of an extracted assignment naming one internship. -/
def countJobA (rows : List (ℕ × ℕ × ℚ)) (p : ℕ) : ℕ :=
  rows.countP (fun e => e.2.1 = p)

/-- Number of rows of a greedy assignment naming one internship. -/
def countJobG {α : Type} (rows : List (ℕ × ℕ × ℚ × α)) (p : ℕ) : ℕ :=
  rows.countP (fun e => e.2.1 = p)

/-! ## Run outcomes (Hungarian path) -/

/-- Outcome of one invocation: one of the three empty-input SUCCESS
notes, or a SUCCESS run with the given persisted match rows. -/
inductive RunResult (α : Type) : Type
  | emptyScopeNote : RunResult α
  | noEligibleNote : RunResult α
  | noCapacityNote : RunResult α
  | persisted (rows : List α) : RunResult α
  deriving DecidableEq, Repr

/-- Embedding of run_allocation in allocation.py.  The scipy solver is
a parameter mapping the cost matrix and the padded size to the list of
(row, column) assignment pairs; the persisted rows are (student id,
internship id, rounded final score) triples. -/
def run_allocation (db : DB) (scope : Option (List String)) (re : Bool)
    (w : Weights) (solver : (ℕ → ℕ → ℚ) → ℕ → List (ℕ × ℕ)) :
    RunResult (ℕ × ℕ × ℚ) :=
  if emptyScopeShortCircuit scope then .emptyScopeNote
  else
    let students := allocEligible db scope re
    if students.isEmpty then .noEligibleNote
    else
      let openJ := allocOpenJobs db
      if openJ.isEmpty then .noCapacityNote
      else
        let slots := jobSlots openJ (allocRemaining db)
        let S := students.length
        let J := slots.length
        let P := max S J
        let score := scoreMatrix w students slots
        let pairs := solver (costMatrix P score) P
        let assigned := extractAssigned S J score
          (fun i => (students.getD i defaultStudent).student_id)
          (fun j => (slots.getD j defaultJob).internship_id) pairs
        .persisted (assigned.map (fun e => (e.1, e.2.1, round4 e.2.2)))

/-! ## Ensemble configuration (process-global, mutated in place) -/

/-- The component breakdown returned by either scorer (values as stored,
that is, already rounded to four decimals by the source). -/
structure Components where
  skill_score : ℚ
  location_score : ℚ
  cgpa_score : ℚ
  deriving DecidableEq, Repr

/-- The fields of the global EnsembleConfig dictionary that the
embedded code reads. -/
structure EnsembleConfig where
  ensemble_method : String
  method_weight_traditional : ℚ
  method_weight_glove : ℚ
  min_score_threshold : ℚ
  traditional_weights : Weights
  glove_weights : Weights
  validation_enabled : Bool
  min_skill_match : ℚ
  min_location_match : ℚ
  deriving DecidableEq, Repr

/-- The defaults installed when the module is imported. -/
def initialEnsembleConfig : EnsembleConfig :=
  ⟨"weighted", 2/5, 3/5, 1/5, defaultWeights, defaultWeights, true, 3/20, 0⟩

/-- The in-place updates run_ensemble_allocation applies to the global
configuration before allocating: every explicitly supplied weight
overwrites both the traditional and the glove copy, and an explicitly
supplied method overwrites the stored method. -/
def applyParamUpdates (cfg : EnsembleConfig) (sw lw cw : Option ℚ)
    (m : Option String) : EnsembleConfig :=
  let c1 := match sw with
    | some v => { cfg with
        traditional_weights := { cfg.traditional_weights with skill := v },
        glove_weights := { cfg.glove_weights with skill := v } }
    | none => cfg
  let c2 := match lw with
    | some v => { c1 with
        traditional_weights := { c1.traditional_weights with location := v },
        glove_weights := { c1.glove_weights with location := v } }
    | none => c1
  let c3 := match cw with
    | some v => { c2 with
        traditional_weights := { c2.traditional_weights with cgpa := v },
        glove_weights := { c2.glove_weights with cgpa := v } }
    | none => c2
  match m with
  | some v => { c3 with ensemble_method := v }
  | none => c3

/-! ## Ensemble scoring and validation -/

/-- Embedding of traditional_score in ensemble_allocation.py: the same
three signals as the Hungarian path (with no CGPA gate, which the
caller applies beforehand), returning the raw weighted sum together
with the rounded component breakdown. -/
def traditional_score (w : Weights) (skills req sloc jloc : String)
    (cgpa min_cgpa : ℚ) : ℚ × Components :=
  let sem := jaccard skills req
  let loc : ℚ := if sloc ≠ "" ∧ jloc ≠ "" ∧ sloc.toLower = jloc.toLower
    then 1 else 0
  let cg := if 0 < min_cgpa then norm (some cgpa) 6 (19/2) else 0
  (w.skill * sem + w.location * loc + w.cgpa * cg,
   ⟨round4 sem, round4 loc, round4 cg⟩)

/-- The final-score combination of ensemble_score, given the two
sub-scores and their component breakdowns: max_score takes the larger
score, voting recombines the per-signal winners with the traditional
weights, and any other method name falls to the weighted sum. -/
def ensembleFinalScore (cfg : EnsembleConfig) (trad_score glove_score : ℚ)
    (tc gc : Components) : ℚ :=
  if cfg.ensemble_method = "max_score" then max trad_score glove_score
  else if cfg.ensemble_method = "voting" then
    let skill_score :=
      if gc.skill_score ≤ tc.skill_score then tc.skill_score
      else gc.skill_score
    let location_score :=
      if gc.location_score ≤ tc.location_score then tc.location_score
      else gc.location_score
    let cgpa_score :=
      if gc.cgpa_score ≤ tc.cgpa_score then tc.cgpa_score
      else gc.cgpa_score
    cfg.traditional_weights.skill * skill_score +
      cfg.traditional_weights.location * location_score +
      cfg.traditional_weights.cgpa * cgpa_score
  else cfg.method_weight_traditional * trad_score +
    cfg.method_weight_glove * glove_score

/-- Embedding of validate_match: with validation enabled, reject when
the skill component is below the skill floor or the location component
is below the location floor.  In the ensemble pipeline the components
dictionary always carries glove_components, so the floors are checked
against the glove breakdown. -/
def validate_match (cfg : EnsembleConfig) (gc : Components) : Bool :=
  if ¬cfg.validation_enabled then true
  else if gc.skill_score < cfg.min_skill_match then false
  else if gc.location_score < cfg.min_location_match then false
  else true

/-- The candidate pair pool of step 7 of run_ensemble_allocation.  The
glove scorer (comprehensive similarity with its fallbacks) is a
parameter producing a score and a component breakdown for a pair; each
surviving tuple is (score, student id, internship id, glove breakdown),
kept only when the CGPA gate, the minimum-score threshold and the
validation floors all pass. -/
def ensemblePairs (cfg : EnsembleConfig)
    (gloveOf : Student → Internship → ℚ × Components) (db : DB)
    (scope : Option (List String)) (re : Bool) :
    List (ℚ × ℕ × ℕ × Components) :=
  ((ensembleEligible db scope re).map (fun s =>
    (ensembleOpenJobs db re).filterMap (fun j =>
      if 0 < ensembleRemaining db re j ∧ cgOk s j then
        let trad := traditional_score cfg.traditional_weights
          s.skills_text j.req_skills_text s.location_pref j.location
          (s.cgpa.getD 0) j.min_cgpa
        let glove := gloveOf s j
        let score := ensembleFinalScore cfg trad.1 glove.1 trad.2 glove.2
        if score < cfg.min_score_threshold then none
        else if validate_match cfg glove.2 then
          some (score, s.student_id, j.internship_id, glove.2)
        else none
      else none))).flatten

/-- The initial remaining-capacity dictionary of step 8. -/
def ensembleRem0 (db : DB) (re : Bool) (jid : ℕ) : ℕ :=
  match (ensembleOpenJobs db re).find? (fun j => j.internship_id = jid) with
  | some j => ensembleRemaining db re j
  | none => 0

/-- Embedding of run_ensemble_allocation.  Returns the configuration
state after the in-place prologue updates together with the run
outcome; persisted rows are (student id, internship id, rounded score,
glove breakdown). -/
def run_ensemble_allocation (db : DB) (scope : Option (List String))
    (re : Bool) (sw lw cw : Option ℚ) (m : Option String)
    (cfg0 : EnsembleConfig)
    (gloveOf : Student → Internship → ℚ × Components) :
    EnsembleConfig × RunResult (ℕ × ℕ × ℚ × Components) :=
  let cfg := applyParamUpdates cfg0 sw lw cw m
  if emptyScopeShortCircuit scope then (cfg, .emptyScopeNote)
  else if (ensembleEligible db scope re).isEmpty then (cfg, .noEligibleNote)
  else if (ensembleOpenJobs db re).isEmpty then (cfg, .noCapacityNote)
  else
    let pairs := List.insertionSort (fun a b => b.1 ≤ a.1)
      (ensemblePairs cfg gloveOf db scope re)
    let assigned := greedyAlloc pairs (ensembleRem0 db re)
    (cfg, .persisted (assigned.map
      (fun e => (e.1, e.2.1, round4 e.2.2.1, e.2.2.2))))

/-- The rows persisted by an outcome: the match rows of a solved run,
nothing for the three empty-input notes. -/
def rowsOf {α : Type} : RunResult α → List α
  | .persisted rows => rows
  | _ => []

/-- The scipy output for the concrete instances below: the identity
assignment, which for a one-by-one cost matrix is the unique perfect
matching and hence exactly what linear_sum_assignment returns. -/
def idSolver : (ℕ → ℕ → ℚ) → ℕ → List (ℕ × ℕ) :=
  fun _ P => (List.range P).map (fun i => (i, i))

/-! ## Dictionary and extraction lemmas -/

theorem nodup_append_singleton {β : Type} [DecidableEq β] (l : List β)
    (k : β) (h : l.Nodup) (hk : k ∉ l) : (l ++ [k]).Nodup :=
  List.nodup_append.mpr
    ⟨h, List.nodup_singleton k,
      fun a ha hb => by
        rw [List.mem_singleton] at hb
        exact hk (hb ▸ ha)⟩

theorem keys_insertAssoc (l : List (ℕ × ℕ × ℚ)) (k : ℕ) (v : ℕ × ℚ) :
    (insertAssoc l k v).map (fun e => e.1) =
      if l.any (fun p => p.1 = k) then l.map (fun e => e.1)
      else l.map (fun e => e.1) ++ [k] := by
  by_cases hk : l.any (fun p => p.1 = k) = true
  · simp only [insertAssoc, hk, if_true, List.map_map]
    refine List.map_congr_left (fun p _ => ?_)
    by_cases hp : p.1 = k
    · simp [hp]
    · simp [hp]
  · rw [Bool.not_eq_true] at hk
    simp [insertAssoc, hk]

theorem nodup_keys_insertAssoc (l : List (ℕ × ℕ × ℚ)) (k : ℕ) (v : ℕ × ℚ)
    (h : (l.map (fun e => e.1)).Nodup) :
    ((insertAssoc l k v).map (fun e => e.1)).Nodup := by
  rw [keys_insertAssoc]
  split
  · exact h
  · next hmem =>
    refine nodup_append_singleton _ _ h (fun hc => ?_)
    rcases List.mem_map.mp hc with ⟨p, hp, hpk⟩
    exact hmem (List.any_eq_true.mpr ⟨p, hp, decide_eq_true hpk⟩)

theorem nodup_keys_extractStep (S J : ℕ) (score : ℕ → ℕ → ℚ)
    (sidOf jidOf : ℕ → ℕ) (acc : List (ℕ × ℕ × ℚ)) (p : ℕ × ℕ)
    (h : (acc.map (fun e => e.1)).Nodup) :
    ((extractStep S J score sidOf jidOf acc p).map (fun e => e.1)).Nodup := by
  unfold extractStep
  split
  · exact nodup_keys_insertAssoc _ _ _ h
  · exact h

theorem nodup_keys_extract_fold (S J : ℕ) (score : ℕ → ℕ → ℚ)
    (sidOf jidOf : ℕ → ℕ) (pairs : List (ℕ × ℕ)) :
    ∀ acc : List (ℕ × ℕ × ℚ), (acc.map (fun e => e.1)).Nodup →
      ((pairs.foldl (extractStep S J score sidOf jidOf) acc).map
        (fun e => e.1)).Nodup := by
  induction pairs with
  | nil => exact fun acc h => h
  | cons p rest ih =>
    intro acc h
    exact ih _ (nodup_keys_extractStep S J score sidOf jidOf acc p h)

theorem nodup_keys_extractAssigned (S J : ℕ) (score : ℕ → ℕ → ℚ)
    (sidOf jidOf : ℕ → ℕ) (pairs : List (ℕ × ℕ)) :
    ((extractAssigned S J score sidOf jidOf pairs).map
      (fun e => e.1)).Nodup :=
  nodup_keys_extract_fold S J score sidOf jidOf pairs [] List.nodup_nil

/-! ## Greedy sweep lemmas -/

theorem greedyStep_fst {α : Type} (st : List (ℕ × ℕ × ℚ × α) × (ℕ → ℕ))
    (p : ℚ × ℕ × ℕ × α) :
    (greedyStep st p).1 = st.1 ∨
      ((greedyStep st p).1 = st.1 ++ [(p.2.1, p.2.2.1, p.1, p.2.2.2)] ∧
        ¬ st.1.any (fun e => e.1 = p.2.1) = true) := by
  simp only [greedyStep]
  split
  · exact Or.inl rfl
  · split
    · exact Or.inl rfl
    · next hmem _ => exact Or.inr ⟨rfl, hmem⟩

theorem nodup_keys_greedy_fold {α : Type} (pairs : List (ℚ × ℕ × ℕ × α)) :
    ∀ st : List (ℕ × ℕ × ℚ × α) × (ℕ → ℕ),
      (st.1.map (fun e => e.1)).Nodup →
      (((pairs.foldl greedyStep st).1).map (fun e => e.1)).Nodup := by
  induction pairs with
  | nil => exact fun st h => h
  | cons p rest ih =>
    intro st h
    show (((rest.foldl greedyStep (greedyStep st p)).1).map
      (fun e => e.1)).Nodup
    refine ih _ ?_
    rcases greedyStep_fst st p with heq | ⟨heq, hmem⟩
    · rw [heq]; exact h
    · rw [heq, List.map_append]
      refine nodup_append_singleton _ _ h (fun hc => ?_)
      rcases List.mem_map.mp hc with ⟨q, hq, hqk⟩
      exact hmem (List.any_eq_true.mpr ⟨q, hq, decide_eq_true hqk⟩)

theorem nodup_keys_greedyAlloc {α : Type} (pairs : List (ℚ × ℕ × ℕ × α))
    (rem0 : ℕ → ℕ) :
    ((greedyAlloc pairs rem0).map (fun e => e.1)).Nodup :=
  nodup_keys_greedy_fold pairs ([], rem0) List.nodup_nil

/-! ## Basic facts about the jaccard similarity -/

theorem jaccard_nonneg (a b : String) : 0 ≤ jaccard a b := by
  unfold jaccard
  split
  · exact le_refl 0
  · split
    · exact le_refl 0
    · exact div_nonneg (Nat.cast_nonneg _) (Nat.cast_nonneg _)

theorem jaccard_le_one (a b : String) : jaccard a b ≤ 1 := by
  unfold jaccard
  split
  · exact zero_le_one
  · split
    · exact zero_le_one
    · exact div_le_one_of_le₀
        (Nat.cast_le.mpr (Finset.card_le_card Finset.inter_subset_union))
        (Nat.cast_nonneg _)

theorem jaccard_comm (a b : String) : jaccard a b = jaccard b a := by
  unfold jaccard
  by_cases h1 : a = "" ∨ b = ""
  · rw [if_pos h1, if_pos h1.symm]
  · rw [if_neg h1, if_neg (fun hc : b = "" ∨ a = "" => h1 hc.symm)]
    by_cases h2 : pyTokenSet a = ∅ ∨ pyTokenSet b = ∅
    · rw [if_pos h2, if_pos h2.symm]
    · rw [if_neg h2,
        if_neg (fun hc : pyTokenSet b = ∅ ∨ pyTokenSet a = ∅ => h2 hc.symm),
        Finset.inter_comm, Finset.union_comm]

theorem pyTokenSet_empty_string : pyTokenSet "" = ∅ := by decide

theorem jaccard_self (a : String) (h : pyTokenSet a ≠ ∅) :
    jaccard a a = 1 := by
  have ha : a ≠ "" := by
    intro he
    exact h (he ▸ pyTokenSet_empty_string)
  have hcard : 0 < (pyTokenSet a).card :=
    Finset.card_pos.mpr (Finset.nonempty_iff_ne_empty.mpr h)
  unfold jaccard
  rw [if_neg (by simp [ha]), if_neg (by simp [h]), Finset.inter_self,
    Finset.union_self]
  exact div_self (by positivity)

/-- Claim C10: the lexical skill-overlap function is symmetric and
bounded, jaccard a b = jaccard b a and 0 ≤ jaccard a b ≤ 1, and
jaccard a a = 1 whenever a has at least one non-blank token. -/
theorem claim_jaccard_symm_bounded (a b : String) :
    jaccard a b = jaccard b a ∧ 0 ≤ jaccard a b ∧ jaccard a b ≤ 1 ∧
      (pyTokenSet a ≠ ∅ → jaccard a a = 1) :=
  ⟨jaccard_comm a b, jaccard_nonneg a b, jaccard_le_one a b,
    fun h => jaccard_self a h⟩

/-- Witness for claim C10 at concrete texts, the inner hypothesis
discharged by evaluation. -/
theorem claim_jaccard_symm_bounded_witness :
    jaccard "Python, sql" "sql" = jaccard "sql" "Python, sql" ∧
      0 ≤ jaccard "Python, sql" "sql" ∧ jaccard "Python, sql" "sql" ≤ 1 ∧
      jaccard "Python, sql" "Python, sql" = 1 := by
  have h := claim_jaccard_symm_bounded "Python, sql" "sql"
  exact ⟨h.1, h.2.1, h.2.2.1, h.2.2.2 (by decide)⟩

/-! ## Claims C5 and C7 -/

/-- Claim C5: on either solver path, the persisted rows of a run name
each candidate at most once, because the assignment is accumulated in a
dictionary keyed by student id (with overwrite in the Hungarian
extraction and an explicit skip in the greedy sweep). -/
theorem claim_candidate_appears_once (db : DB)
    (scope : Option (List String)) (re : Bool) (w : Weights)
    (solver : (ℕ → ℕ → ℚ) → ℕ → List (ℕ × ℕ)) (sw lw cw : Option ℚ)
    (m : Option String) (cfg0 : EnsembleConfig)
    (gloveOf : Student → Internship → ℚ × Components) :
    ((rowsOf (run_allocation db scope re w solver)).map
      (fun e => e.1)).Nodup ∧
    ((rowsOf (run_ensemble_allocation db scope re sw lw cw m cfg0
      gloveOf).2).map (fun e => e.1)).Nodup := by
  constructor
  · simp only [run_allocation]
    split
    · simp [rowsOf]
    · split
      · simp [rowsOf]
      · split
        · simp [rowsOf]
        · simp only [rowsOf, List.map_map]
          exact nodup_keys_extractAssigned _ _ _ _ _ _
  · simp only [run_ensemble_allocation]
    split
    · simp [rowsOf]
    · split
      · simp [rowsOf]
      · split
        · simp [rowsOf]
        · simp only [rowsOf, List.map_map]
          exact nodup_keys_greedyAlloc _ _

theorem extractStep_pos (S J : ℕ) (score : ℕ → ℕ → ℚ)
    (sidOf jidOf : ℕ → ℕ) (acc : List (ℕ × ℕ × ℚ)) (p : ℕ × ℕ)
    (h : p.1 < S ∧ p.2 < J ∧ 0 < score p.1 p.2) :
    extractStep S J score sidOf jidOf acc p =
      insertAssoc acc (sidOf p.1) (jidOf p.2, score p.1 p.2) := by
  unfold extractStep
  exact if_pos h

theorem extractStep_neg (S J : ℕ) (score : ℕ → ℕ → ℚ)
    (sidOf jidOf : ℕ → ℕ) (acc : List (ℕ × ℕ × ℚ)) (p : ℕ × ℕ)
    (h : ¬(p.1 < S ∧ p.2 < J ∧ 0 < score p.1 p.2)) :
    extractStep S J score sidOf jidOf acc p = acc := by
  unfold extractStep
  exact if_neg h

theorem mem_insertAssoc (l : List (ℕ × ℕ × ℚ)) (k : ℕ) (v : ℕ × ℚ)
    (e : ℕ × ℕ × ℚ) (he : e ∈ insertAssoc l k v) :
    e = (k, v.1, v.2) ∨ e ∈ l := by
  unfold insertAssoc at he
  split at he
  · rcases List.mem_map.mp he with ⟨q, hq, hqe⟩
    by_cases hk : q.1 = k
    · rw [if_pos hk] at hqe
      exact Or.inl hqe.symm
    · rw [if_neg hk] at hqe
      exact Or.inr (hqe ▸ hq)
  · rcases List.mem_append.mp he with h | h
    · exact Or.inr h
    · exact Or.inl (List.mem_singleton.mp h)

theorem mem_extract_fold (S J : ℕ) (score : ℕ → ℕ → ℚ)
    (sidOf jidOf : ℕ → ℕ) (pairs : List (ℕ × ℕ)) :
    ∀ (acc : List (ℕ × ℕ × ℚ)) (e : ℕ × ℕ × ℚ),
      e ∈ pairs.foldl (extractStep S J score sidOf jidOf) acc →
      (∃ p ∈ pairs, p.1 < S ∧ p.2 < J ∧ 0 < score p.1 p.2 ∧
        e = (sidOf p.1, jidOf p.2, score p.1 p.2)) ∨ e ∈ acc := by
  induction pairs with
  | nil => exact fun acc e he => Or.inr he
  | cons q rest ih =>
    intro acc e he
    rcases ih (extractStep S J score sidOf jidOf acc q) e he with h | h
    · rcases h with ⟨p, hp, hrest⟩
      exact Or.inl ⟨p, List.mem_cons_of_mem q hp, hrest⟩
    · by_cases hg : q.1 < S ∧ q.2 < J ∧ 0 < score q.1 q.2
      · rw [extractStep_pos S J score sidOf jidOf acc q hg] at h
        rcases mem_insertAssoc _ _ _ _ h with h1 | h1
        · exact Or.inl ⟨q, List.mem_cons_self q rest,
            hg.1, hg.2.1, hg.2.2, h1⟩
        · exact Or.inr h1
      · rw [extractStep_neg S J score sidOf jidOf acc q hg] at h
        exact Or.inr h

theorem extract_fold_filter (S J : ℕ) (score : ℕ → ℕ → ℚ)
    (sidOf jidOf : ℕ → ℕ) (pairs : List (ℕ × ℕ)) :
    ∀ acc : List (ℕ × ℕ × ℚ),
      pairs.foldl (extractStep S J score sidOf jidOf) acc =
        (pairs.filter
          (fun p => decide (p.1 < S ∧ p.2 < J ∧ 0 < score p.1 p.2))).foldl
          (extractStep S J score sidOf jidOf) acc := by
  induction pairs with
  | nil => exact fun acc => rfl
  | cons q rest ih =>
    intro acc
    by_cases hg : q.1 < S ∧ q.2 < J ∧ 0 < score q.1 q.2
    · have hfc : List.filter
          (fun p => decide (p.1 < S ∧ p.2 < J ∧ 0 < score p.1 p.2))
          (q :: rest) =
          q :: List.filter
            (fun p => decide (p.1 < S ∧ p.2 < J ∧ 0 < score p.1 p.2))
            rest := by
        simp [List.filter_cons, hg]
      rw [List.foldl_cons, hfc, List.foldl_cons, ih]
    · have hfc : List.filter
          (fun p => decide (p.1 < S ∧ p.2 < J ∧ 0 < score p.1 p.2))
          (q :: rest) =
          List.filter
            (fun p => decide (p.1 < S ∧ p.2 < J ∧ 0 < score p.1 p.2))
            rest := by
        simp [List.filter_cons, hg]
      rw [List.foldl_cons, extractStep_neg S J score sidOf jidOf acc q hg,
        hfc, ih]

/-- Claim C7: the post-solve extraction of the optimal path ignores
every solver pair touching a padding row or column or carrying a
non-positive score: the extraction of the raw solver output equals the
extraction of the filtered output, and every extracted row originates
in a real, positive-score pair. -/
theorem claim_padding_pairs_discarded (S J : ℕ) (score : ℕ → ℕ → ℚ)
    (sidOf jidOf : ℕ → ℕ) (pairs : List (ℕ × ℕ)) :
    (extractAssigned S J score sidOf jidOf pairs =
      extractAssigned S J score sidOf jidOf
        (pairs.filter
          (fun p => decide (p.1 < S ∧ p.2 < J ∧ 0 < score p.1 p.2)))) ∧
    ∀ e ∈ extractAssigned S J score sidOf jidOf pairs,
      ∃ p ∈ pairs, p.1 < S ∧ p.2 < J ∧ 0 < score p.1 p.2 ∧
        e = (sidOf p.1, jidOf p.2, score p.1 p.2) := by
  constructor
  · exact extract_fold_filter S J score sidOf jidOf pairs []
  · intro e he
    rcases mem_extract_fold S J score sidOf jidOf pairs [] e he with h | h
    · exact h
    · exact absurd h (List.not_mem_nil e)

/-- Witness for claim C7 on a concrete instance with one real pair and
two padding pairs. -/
theorem claim_padding_pairs_discarded_witness :
    (0, 0, (1 : ℚ)) ∈ extractAssigned 1 1 (fun _ _ => (1 : ℚ))
      (fun i => i) (fun j => j) [(0, 0), (1, 0), (0, 1)] ∧
    ∃ p ∈ [(0, 0), (1, 0), (0, 1)], p.1 < 1 ∧ p.2 < 1 ∧
      (0 : ℚ) < 1 ∧ ((0 : ℕ), (0 : ℕ), (1 : ℚ)) = (p.1, p.2, 1) := by
  refine ⟨?_, ?_⟩
  · show (0, 0, (1 : ℚ)) ∈ extractAssigned 1 1 (fun _ _ => (1 : ℚ))
      (fun i => i) (fun j => j) [(0, 0), (1, 0), (0, 1)]
    simp [extractAssigned, extractStep, insertAssoc]
  · have h := (claim_padding_pairs_discarded 1 1 (fun _ _ => (1 : ℚ))
      (fun i => i) (fun j => j) [(0, 0), (1, 0), (0, 1)]).2
      (0, 0, (1 : ℚ))
      (by simp [extractAssigned, extractStep, insertAssoc])
    exact h

/-! ## Counting lemmas for claim C4 -/

theorem countP_getD_range {β : Type} (l : List β) (P : β → Bool) (d : β) :
    (List.range l.length).countP (fun j => P (l.getD j d)) = l.countP P := by
  induction l with
  | nil => rfl
  | cons a t ih =>
    rw [List.length_cons, List.range_succ_eq_map, List.countP_cons,
      List.countP_map, List.countP_cons]
    have hcomp : ((fun j => P ((a :: t).getD j d)) ∘ Nat.succ) =
        (fun j => P (t.getD j d)) := by
      funext j
      simp [Function.comp, List.getD_cons_succ]
    rw [hcomp, ih]
    simp [List.getD_cons_zero]

theorem nodup_idx_length_le_countP {β : Type} [DecidableEq β] (l : List β)
    (P : β → Bool) (d : β) (js : List ℕ) (hnd : js.Nodup)
    (hmem : ∀ j ∈ js, j < l.length ∧ P (l.getD j d) = true) :
    js.length ≤ l.countP P := by
  have h1 : js.length = js.toFinset.card :=
    (List.toFinset_card_of_nodup hnd).symm
  have hsub : js.toFinset ⊆
      ((List.range l.length).filter
        (fun j => P (l.getD j d))).toFinset := by
    intro j hj
    have hj2 := hmem j (List.mem_toFinset.mp hj)
    exact List.mem_toFinset.mpr
      (List.mem_filter.mpr ⟨List.mem_range.mpr hj2.1, hj2.2⟩)
  calc js.length = js.toFinset.card := h1
    _ ≤ ((List.range l.length).filter
        (fun j => P (l.getD j d))).toFinset.card := Finset.card_le_card hsub
    _ ≤ ((List.range l.length).filter
        (fun j => P (l.getD j d))).length := List.toFinset_card_le _
    _ = (List.range l.length).countP (fun j => P (l.getD j d)) :=
        (List.countP_eq_length_filter _ _).symm
    _ = l.countP P := countP_getD_range l P d

theorem countJobA_insertAssoc (l : List (ℕ × ℕ × ℚ)) (k : ℕ) (v : ℕ × ℚ)
    (p : ℕ) (h : (l.map (fun e => e.1)).Nodup) :
    countJobA (insertAssoc l k v) p ≤
      countJobA l p + (if v.1 = p then 1 else 0) := by
  unfold insertAssoc
  split
  · next hany =>
    induction l with
    | nil => simp [countJobA]
    | cons e t ih =>
      by_cases hek : e.1 = k
      · have htk : ∀ q ∈ t, q.1 ≠ k := by
          intro q hq hqk
          rw [List.map_cons, List.nodup_cons] at h
          exact h.1 (hek ▸ hqk ▸ List.mem_map.mpr ⟨q, hq, rfl⟩)
        have hmap : t.map (fun q => if q.1 = k then (k, v) else q) = t :=
          List.map_congr_left (fun q hq => if_neg (htk q hq)) |>.trans
            t.map_id
        rw [List.map_cons, if_pos hek, hmap]
        unfold countJobA
        rw [List.countP_cons, List.countP_cons]
        by_cases hv : v.1 = p <;> by_cases hep : e.2.1 = p <;>
          simp [hv, hep]
      · have ht : (t.map (fun e => e.1)).Nodup :=
          (List.nodup_cons.mp (by simpa using h)).2
        have hany2 : t.any (fun q => q.1 = k) = true := by
          rcases List.any_eq_true.mp hany with ⟨q, hq, hqk⟩
          rcases List.mem_cons.mp hq with hq1 | hq1
          · exact absurd (of_decide_eq_true (hq1 ▸ hqk)) hek
          · exact List.any_eq_true.mpr ⟨q, hq1, hqk⟩
        have := ih ht hany2
        rw [List.map_cons, if_neg hek]
        unfold countJobA at this ⊢
        rw [List.countP_cons, List.countP_cons]
        split <;> omega
  · unfold countJobA
    rw [List.countP_append]
    simp only [List.countP_singleton]
    by_cases hv : v.1 = p <;> simp [hv]

theorem countJobA_extract_fold (S J : ℕ) (score : ℕ → ℕ → ℚ)
    (sidOf jidOf : ℕ → ℕ) (p : ℕ) (pairs : List (ℕ × ℕ)) :
    ∀ acc : List (ℕ × ℕ × ℚ), (acc.map (fun e => e.1)).Nodup →
      countJobA (pairs.foldl (extractStep S J score sidOf jidOf) acc) p ≤
        countJobA acc p +
          pairs.countP (fun q =>
            decide ((q.1 < S ∧ q.2 < J ∧ 0 < score q.1 q.2) ∧
              jidOf q.2 = p)) := by
  induction pairs with
  | nil => exact fun acc _ => by simp
  | cons q rest ih =>
    intro acc hnd
    rw [List.foldl_cons, List.countP_cons]
    by_cases hg : q.1 < S ∧ q.2 < J ∧ 0 < score q.1 q.2
    · have hstep := extractStep_pos S J score sidOf jidOf acc q hg
      have h1 := ih (extractStep S J score sidOf jidOf acc q)
        (nodup_keys_extractStep S J score sidOf jidOf acc q hnd)
      have h2 : countJobA (extractStep S J score sidOf jidOf acc q) p ≤
          countJobA acc p + (if jidOf q.2 = p then 1 else 0) := by
        rw [hstep]
        exact countJobA_insertAssoc acc (sidOf q.1)
          (jidOf q.2, score q.1 q.2) p hnd
      by_cases hp : jidOf q.2 = p
      · rw [if_pos hp] at h2
        have hd : decide ((q.1 < S ∧ q.2 < J ∧ 0 < score q.1 q.2) ∧
            jidOf q.2 = p) = true := decide_eq_true ⟨hg, hp⟩
        rw [hd, if_pos rfl]
        omega
      · rw [if_neg hp] at h2
        have hd : decide ((q.1 < S ∧ q.2 < J ∧ 0 < score q.1 q.2) ∧
            jidOf q.2 = p) = false := by
          simp [hp]
        rw [hd, if_neg Bool.false_ne_true]
        omega
    · rw [extractStep_neg S J score sidOf jidOf acc q hg]
      have hd : decide ((q.1 < S ∧ q.2 < J ∧ 0 < score q.1 q.2) ∧
          jidOf q.2 = p) = false := by
        simp only [decide_eq_false_iff_not]
        exact fun hc => hg hc.1
      rw [hd, if_neg Bool.false_ne_true]
      have := ih acc hnd
      omega

theorem countP_replicate {β : Type} (n : ℕ) (x : β) (P : β → Bool) :
    (List.replicate n x).countP P = if P x then n else 0 := by
  induction n with
  | zero => simp
  | succ n ih =>
    rw [List.replicate_succ, List.countP_cons, ih]
    split <;> omega

theorem countP_jobSlots (jobs : List Internship) (rem : Internship → ℕ)
    (p : ℕ) :
    (jobSlots jobs rem).countP (fun s => decide (s.internship_id = p)) =
      (jobs.map
        (fun x => if x.internship_id = p then rem x else 0)).sum := by
  unfold jobSlots
  rw [List.countP_flatten, List.map_map]
  congr 1
  refine List.map_congr_left (fun x _ => ?_)
  simp only [Function.comp]
  rw [countP_replicate]
  split
  · next hx => rw [if_pos (of_decide_eq_true hx)]
  · next hx => rw [if_neg (fun hc => hx (decide_eq_true hc))]

theorem sum_if_single_le (jobs : List Internship) (f : Internship → ℕ)
    (p : ℕ) (j0 : Internship)
    (hinj : ∀ x ∈ jobs, x.internship_id = p → x = j0)
    (hnd : (jobs.map (fun x => x.internship_id)).Nodup) :
    ((jobs.map
      (fun x => if x.internship_id = p then f x else 0)).sum) ≤ f j0 := by
  induction jobs with
  | nil => simp
  | cons x t ih =>
    rw [List.map_cons, List.sum_cons]
    rw [List.map_cons, List.nodup_cons] at hnd
    by_cases hx : x.internship_id = p
    · have hx0 : x = j0 := hinj x (List.mem_cons_self x t) hx
      have htail : ∀ y ∈ t, y.internship_id ≠ p := by
        intro y hy hyp
        exact hnd.1 ((hx.trans hyp.symm) ▸ List.mem_map.mpr ⟨y, hy, rfl⟩)
      have hzero : (t.map
          (fun y => if y.internship_id = p then f y else 0)).sum = 0 := by
        refine List.sum_eq_zero (fun z hz => ?_)
        rcases List.mem_map.mp hz with ⟨y, hy, hyz⟩
        rw [← hyz, if_neg (htail y hy)]
      rw [if_pos hx, hzero, hx0]
      omega
    · rw [if_neg hx]
      have := ih (fun y hy => hinj y (List.mem_cons_of_mem x hy)) hnd.2
      omega

/-! ## Greedy capacity invariant -/

theorem greedyStep_cases {α : Type} (st : List (ℕ × ℕ × ℚ × α) × (ℕ → ℕ))
    (q : ℚ × ℕ × ℕ × α) :
    greedyStep st q = st ∨
      (st.2 q.2.2.1 ≠ 0 ∧
        greedyStep st q = (st.1 ++ [(q.2.1, q.2.2.1, q.1, q.2.2.2)],
          fun j => if j = q.2.2.1 then st.2 q.2.2.1 - 1 else st.2 j)) := by
  simp only [greedyStep]
  split
  · exact Or.inl rfl
  · split
    · exact Or.inl rfl
    · next hne => exact Or.inr ⟨hne, rfl⟩

theorem greedy_count_invariant {α : Type} (p : ℕ)
    (pairs : List (ℚ × ℕ × ℕ × α)) :
    ∀ st : List (ℕ × ℕ × ℚ × α) × (ℕ → ℕ),
      countJobG (pairs.foldl greedyStep st).1 p +
          (pairs.foldl greedyStep st).2 p =
        countJobG st.1 p + st.2 p := by
  induction pairs with
  | nil => exact fun st => rfl
  | cons q rest ih =>
    intro st
    rw [List.foldl_cons]
    rw [ih (greedyStep st q)]
    rcases greedyStep_cases st q with heq | ⟨hne, heq⟩
    · rw [heq]
    · rw [heq]
      unfold countJobG
      rw [List.countP_append]
      simp only [List.countP_singleton]
      by_cases hp : q.2.2.1 = p
      · subst hp
        simp
        omega
      · rw [if_neg (fun hc : p = q.2.2.1 => hp hc.symm)]
        simp [decide_eq_false hp]

theorem countJobG_greedyAlloc_le {α : Type} (p : ℕ)
    (pairs : List (ℚ × ℕ × ℕ × α)) (rem0 : ℕ → ℕ) :
    countJobG (greedyAlloc pairs rem0) p ≤ rem0 p := by
  have h := greedy_count_invariant p pairs ([], rem0)
  unfold greedyAlloc
  simp only [countJobG, List.countP_nil] at h ⊢
  omega

/-! ## Claim C4: capacity is never exceeded -/

theorem countJobA_map_persist (assigned : List (ℕ × ℕ × ℚ)) (p : ℕ) :
    countJobA (assigned.map (fun e => (e.1, e.2.1, round4 e.2.2))) p =
      countJobA assigned p := by
  unfold countJobA
  rw [List.countP_map]
  rfl

theorem countJobG_map_persist {α : Type} (assigned : List (ℕ × ℕ × ℚ × α))
    (p : ℕ) :
    countJobG (assigned.map
      (fun e => (e.1, e.2.1, round4 e.2.2.1, e.2.2.2))) p =
      countJobG assigned p := by
  unfold countJobG
  rw [List.countP_map]
  rfl

theorem extract_count_le_slots (students : List Student)
    (slots : List Internship) (score : ℕ → ℕ → ℚ) (sidOf : ℕ → ℕ)
    (pairs : List (ℕ × ℕ)) (p : ℕ) (hsnd : (pairs.map Prod.snd).Nodup) :
    countJobA (extractAssigned students.length slots.length score sidOf
      (fun j => (slots.getD j defaultJob).internship_id) pairs) p ≤
      slots.countP (fun s => decide (s.internship_id = p)) := by
  have h1b : countJobA (List.foldl (extractStep students.length
      slots.length score sidOf
      (fun j => (slots.getD j defaultJob).internship_id)) [] pairs) p ≤
      countJobA ([] : List (ℕ × ℕ × ℚ)) p +
        pairs.countP (fun q =>
          decide ((q.1 < students.length ∧ q.2 < slots.length ∧
            0 < score q.1 q.2) ∧
            (slots.getD q.2 defaultJob).internship_id = p)) :=
    countJobA_extract_fold students.length slots.length score
      sidOf (fun j => (slots.getD j defaultJob).internship_id) p pairs []
      List.nodup_nil
  have hsubl : (pairs.filter (fun q =>
      decide ((q.1 < students.length ∧ q.2 < slots.length ∧
        0 < score q.1 q.2) ∧
        (slots.getD q.2 defaultJob).internship_id = p))).Sublist pairs :=
    List.filter_sublist pairs
  have hjs_nodup : ((pairs.filter (fun q =>
      decide ((q.1 < students.length ∧ q.2 < slots.length ∧
        0 < score q.1 q.2) ∧
        (slots.getD q.2 defaultJob).internship_id = p))).map
          Prod.snd).Nodup :=
    (hsubl.map Prod.snd).nodup hsnd
  have hjs_mem : ∀ j ∈ (pairs.filter (fun q =>
      decide ((q.1 < students.length ∧ q.2 < slots.length ∧
        0 < score q.1 q.2) ∧
        (slots.getD q.2 defaultJob).internship_id = p))).map Prod.snd,
      j < slots.length ∧
      decide ((slots.getD j defaultJob).internship_id = p) = true := by
    intro j hj
    rcases List.mem_map.mp hj with ⟨q, hq, hqj⟩
    have hpred : (q.1 < students.length ∧ q.2 < slots.length ∧
        0 < score q.1 q.2) ∧
        (slots.getD q.2 defaultJob).internship_id = p := by
      simpa using List.of_mem_filter hq
    exact ⟨hqj ▸ hpred.1.2.1, hqj ▸ decide_eq_true hpred.2⟩
  have h2 : ((pairs.filter (fun q =>
      decide ((q.1 < students.length ∧ q.2 < slots.length ∧
        0 < score q.1 q.2) ∧
        (slots.getD q.2 defaultJob).internship_id = p))).map
          Prod.snd).length ≤
      slots.countP (fun s => decide (s.internship_id = p)) :=
    nodup_idx_length_le_countP slots _ defaultJob _ hjs_nodup hjs_mem
  rw [List.length_map, ← List.countP_eq_length_filter] at h2
  have ha : countJobA ([] : List (ℕ × ℕ × ℚ)) p = 0 := rfl
  unfold extractAssigned
  omega

theorem mem_allocOpenJobs (db : DB) (x : Internship)
    (hx : x ∈ allocOpenJobs db) : x ∈ db.internships :=
  List.mem_filter.mp (List.mem_filter.mp hx).1 |>.1

theorem mem_ensembleOpenJobs (db : DB) (re : Bool) (x : Internship)
    (hx : x ∈ ensembleOpenJobs db re) : x ∈ db.internships :=
  List.mem_filter.mp (List.mem_filter.mp hx).1 |>.1

theorem allocOpenJobs_ids_nodup (db : DB)
    (hids : (db.internships.map (fun j => j.internship_id)).Nodup) :
    ((allocOpenJobs db).map (fun j => j.internship_id)).Nodup :=
  (((List.filter_sublist _).trans (List.filter_sublist _)).map _).nodup hids

theorem ensembleOpenJobs_ids_nodup (db : DB) (re : Bool)
    (hids : (db.internships.map (fun j => j.internship_id)).Nodup) :
    ((ensembleOpenJobs db re).map (fun j => j.internship_id)).Nodup :=
  (((List.filter_sublist _).trans (List.filter_sublist _)).map _).nodup hids

theorem ensembleRem0_le (db : DB) (re : Bool) (j : Internship)
    (hids : (db.internships.map (fun j => j.internship_id)).Nodup)
    (hj : j ∈ db.internships) :
    ensembleRem0 db re j.internship_id ≤ ensembleRemaining db re j := by
  unfold ensembleRem0
  cases hf : (ensembleOpenJobs db re).find?
    (fun x => x.internship_id = j.internship_id) with
  | none => exact Nat.zero_le _
  | some x =>
    have hxmem := mem_ensembleOpenJobs db re x (List.mem_of_find?_eq_some hf)
    have hpx := List.find?_some hf
    have hxid : x.internship_id = j.internship_id := by simpa using hpx
    have hxj : x = j :=
      List.inj_on_of_nodup_map hids hxmem hj hxid
    rw [hxj]

/-- Claim C4: on either path, the number of rows a run persists for a
position, plus the consumed placements counted when incremental mode is
active, never exceeds the position capacity.  The hypotheses record
that internship ids are unique (primary key), that the prior consumed
count does not already exceed the capacity, and that the external
solver returns pairwise distinct column indices, which
linear_sum_assignment guarantees. -/
theorem claim_capacity_never_exceeded (db : DB)
    (scope : Option (List String)) (re : Bool) (w : Weights)
    (solver : (ℕ → ℕ → ℚ) → ℕ → List (ℕ × ℕ)) (sw lw cw : Option ℚ)
    (m : Option String) (cfg0 : EnsembleConfig)
    (gloveOf : Student → Internship → ℚ × Components) (j : Internship)
    (hsolver : ∀ cost P, ((solver cost P).map Prod.snd).Nodup)
    (hids : (db.internships.map (fun j => j.internship_id)).Nodup)
    (hj : j ∈ db.internships)
    (hcap : usedByInternship db j.internship_id ≤ j.capacity) :
    countJobA (rowsOf (run_allocation db scope re w solver))
        j.internship_id +
      (if re then usedByInternship db j.internship_id else 0) ≤
        j.capacity ∧
    countJobG (rowsOf (run_ensemble_allocation db scope re sw lw cw m cfg0
        gloveOf).2) j.internship_id +
      ensembleUsed db re j.internship_id ≤ j.capacity := by
  have hgate : (if re then usedByInternship db j.internship_id else 0) ≤
      usedByInternship db j.internship_id := by
    split
    · exact le_refl _
    · exact Nat.zero_le _
  have heu : ensembleUsed db re j.internship_id ≤
      usedByInternship db j.internship_id := by
    unfold ensembleUsed
    split
    · exact le_refl _
    · exact Nat.zero_le _
  constructor
  · simp only [run_allocation]
    split
    · simp only [rowsOf, countJobA, List.countP_nil]
      omega
    · split
      · simp only [rowsOf, countJobA, List.countP_nil]
        omega
      · split
        · simp only [rowsOf, countJobA, List.countP_nil]
          omega
        · simp only [rowsOf]
          rw [countJobA_map_persist]
          have hx := extract_count_le_slots (allocEligible db scope re)
            (jobSlots (allocOpenJobs db) (allocRemaining db))
            (scoreMatrix w (allocEligible db scope re)
              (jobSlots (allocOpenJobs db) (allocRemaining db)))
            (fun i => ((allocEligible db scope re).getD i
              defaultStudent).student_id)
            (solver
              (costMatrix
                (max (allocEligible db scope re).length
                  (jobSlots (allocOpenJobs db) (allocRemaining db)).length)
                (scoreMatrix w (allocEligible db scope re)
                  (jobSlots (allocOpenJobs db) (allocRemaining db))))
              (max (allocEligible db scope re).length
                (jobSlots (allocOpenJobs db) (allocRemaining db)).length))
            j.internship_id (hsolver _ _)
          have hslots : (jobSlots (allocOpenJobs db)
              (allocRemaining db)).countP
              (fun s => decide (s.internship_id = j.internship_id)) ≤
              allocRemaining db j := by
            rw [countP_jobSlots]
            refine sum_if_single_le (allocOpenJobs db) (allocRemaining db)
              j.internship_id j (fun x hx hxe => ?_)
              (allocOpenJobs_ids_nodup db hids)
            exact List.inj_on_of_nodup_map hids
              (mem_allocOpenJobs db x hx) hj hxe
          have hrem : allocRemaining db j =
              j.capacity - usedByInternship db j.internship_id := rfl
          omega
  · simp only [run_ensemble_allocation]
    split
    · simp only [rowsOf, countJobG, List.countP_nil]
      omega
    · split
      · simp only [rowsOf, countJobG, List.countP_nil]
        omega
      · split
        · simp only [rowsOf, countJobG, List.countP_nil]
          omega
        · simp only [rowsOf]
          rw [countJobG_map_persist]
          have hg := countJobG_greedyAlloc_le j.internship_id
            (List.insertionSort (fun a b => b.1 ≤ a.1)
              (ensemblePairs (applyParamUpdates cfg0 sw lw cw m) gloveOf
                db scope re))
            (ensembleRem0 db re)
          have hr0 := ensembleRem0_le db re j hids hj
          have hrem : ensembleRemaining db re j =
              j.capacity - ensembleUsed db re j.internship_id := rfl
          omega

theorem idSolver_snd_nodup (cost : ℕ → ℕ → ℚ) (P : ℕ) :
    ((idSolver cost P).map Prod.snd).Nodup := by
  have hmap : (idSolver cost P).map Prod.snd = List.range P := by
    simp only [idSolver, List.map_map]
    exact List.map_id _
  rw [hmap]
  exact List.nodup_range P

/-- A one-student, one-internship database with no prior runs, used by
concrete witnesses. -/
def exDB4 : DB :=
  ⟨[⟨1, "a@x", none, "", "python"⟩],
   [⟨10, "", 1, "python", 0, true⟩], [], []⟩

/-- The single internship of exDB4. -/
def exJob4 : Internship := ⟨10, "", 1, "python", 0, true⟩

/-- Witness for claim C4 on the concrete one-student one-internship
database, every hypothesis discharged by evaluation. -/
theorem claim_capacity_never_exceeded_witness :
    countJobA (rowsOf (run_allocation exDB4 none true defaultWeights
        idSolver)) 10 + (if true then usedByInternship exDB4 10 else 0) ≤
      1 ∧
    countJobG (rowsOf (run_ensemble_allocation exDB4 none true none none
        none none initialEnsembleConfig
        (fun _ _ => (0, ⟨0, 0, 0⟩)) ).2) 10 +
      ensembleUsed exDB4 true 10 ≤ 1 := by
  have h := claim_capacity_never_exceeded exDB4 none true defaultWeights
    idSolver none none none none initialEnsembleConfig
    (fun _ _ => (0, ⟨0, 0, 0⟩)) exJob4 idSolver_snd_nodup
    (by decide) (by decide)
    (by decide)
  exact h

/-! ## Claim C1: the incremental projections -/

/-- Database with two SUCCESS runs, each placing one student into
internship 10 (capacity 1), plus one unplaced student. -/
def exDB1 : DB :=
  ⟨[⟨3, "c@x", none, "", "python"⟩],
   [⟨10, "", 1, "python", 0, true⟩],
   [⟨1, true⟩, ⟨2, true⟩],
   [⟨1, 1, 10, 1⟩, ⟨2, 2, 10, 1⟩]⟩

/-- Counterexample to claim C1: on exDB1 the code freezes student 1,
who was placed by the older SUCCESS run and is absent from the latest
run projection; the consumed count for internship 10 covers both runs
rather than the latest one; and with incremental mode off the run still
subtracts consumed capacity and reports no open capacity instead of
treating the position as having its full capacity of one. -/
theorem claim_incremental_latest_only_counterexample :
    (1 ∈ frozenStudents exDB1 ∧ 1 ∉ specLatestFrozenStudents exDB1) ∧
    usedByInternship exDB1 10 = 2 ∧ specLatestUsed exDB1 10 = 1 ∧
    run_allocation exDB1 none false defaultWeights idSolver =
      .noCapacityNote := by decide

/-- Claim C1 as amended: both entry points build the frozen projection
from the match rows of all SUCCESS runs, of which the single-latest-run
projection of the spec is only a subset; in the Hungarian path the
frozen exclusion alone is gated on respect_existing while the
consumed-capacity subtraction always applies, and in the ensemble path
both projections are empty when respect_existing is off. -/
theorem claim_incremental_projection_amended (db : DB)
    (scope : Option (List String)) (s : Student) (j : Internship) :
    (specLatestFrozenStudents db ⊆ frozenStudents db) ∧
    (s ∈ allocEligible db scope false ↔ s ∈ db.students ∧
      (∀ es, emailsParam scope = some es → s.email ∈ es)) ∧
    (s ∈ allocEligible db scope true ↔ s ∈ db.students ∧
      (∀ es, emailsParam scope = some es → s.email ∈ es) ∧
      s.student_id ∉ frozenStudents db) ∧
    (allocRemaining db j =
      j.capacity - usedByInternship db j.internship_id) ∧
    (ensembleFrozen db false = ∅) ∧
    (ensembleFrozen db true = frozenStudents db) ∧
    (ensembleRemaining db false j = j.capacity) ∧
    (s ∈ ensembleEligible db scope false ↔ s ∈ db.students ∧
      (∀ es, emailsParam scope = some es → s.email ∈ es)) := by
  refine ⟨?_, ?_, ?_, rfl, rfl, rfl, ?_, ?_⟩
  · intro x hx
    unfold specLatestFrozenStudents at hx
    unfold latestSuccessRunId at hx
    cases hl : (db.runs.filter (fun r => r.success)).getLast? with
    | none =>
      rw [hl] at hx
      exact absurd hx (Finset.not_mem_empty x)
    | some r0 =>
      rw [hl] at hx
      have hx2 : x ∈ ((db.match_rows.filter
          (fun m => m.run_id = r0.run_id)).map
            (fun m => m.student_id)).toFinset := hx
      rcases List.mem_map.mp (List.mem_toFinset.mp hx2) with ⟨mr, hmr, hms⟩
      have hmr2 := List.mem_filter.mp hmr
      have hr0mem : r0 ∈ db.runs.filter (fun r => r.success) := by
        have hoptmem : r0 ∈ (db.runs.filter (fun r => r.success)).getLast? := by
          rw [hl]; rfl
        rcases List.mem_getLast?_eq_getLast hoptmem with ⟨hne, heq⟩
        rw [heq]
        exact List.getLast_mem hne
      have hr0 := List.mem_filter.mp hr0mem
      have hmrid : mr.run_id = r0.run_id := of_decide_eq_true hmr2.2
      refine List.mem_toFinset.mpr (List.mem_map.mpr ⟨mr, ?_, hms⟩)
      refine List.mem_filter.mpr ⟨hmr2.1, ?_⟩
      refine List.any_eq_true.mpr ⟨r0, hr0.1, ?_⟩
      exact decide_eq_true ⟨hmrid.symm, hr0.2⟩
  · unfold allocEligible allocStudentWhere
    rw [List.mem_filter]
    constructor
    · rintro ⟨hs, hw⟩
      rw [Bool.and_eq_true] at hw
      rcases hw with ⟨h1, _⟩
      refine ⟨hs, fun es hes => ?_⟩
      rw [hes] at h1
      exact of_decide_eq_true h1
    · rintro ⟨hs, hscope⟩
      refine ⟨hs, (Bool.and_eq_true _ _) ▸ (⟨?_, ?_⟩ : _ ∧ _)⟩
      · cases hes : emailsParam scope with
        | none => rfl
        | some es => exact decide_eq_true (hscope es hes)
      · rw [if_neg (fun hc => Bool.false_ne_true hc.2)]
  · unfold allocEligible allocStudentWhere
    rw [List.mem_filter]
    constructor
    · rintro ⟨hs, hw⟩
      rw [Bool.and_eq_true] at hw
      rcases hw with ⟨h1, h2⟩
      refine ⟨hs, fun es hes => ?_, ?_⟩
      · rw [hes] at h1
        exact of_decide_eq_true h1
      · intro hfz
        by_cases hne : frozenStudents db ≠ ∅
        · rw [if_pos ⟨hne, rfl⟩] at h2
          exact absurd hfz (of_decide_eq_true h2)
        · rw [Classical.not_not] at hne
          rw [hne] at hfz
          exact absurd hfz (Finset.not_mem_empty _)
    · rintro ⟨hs, hscope, hfz⟩
      refine ⟨hs, (Bool.and_eq_true _ _) ▸ (⟨?_, ?_⟩ : _ ∧ _)⟩
      · cases hes : emailsParam scope with
        | none => rfl
        | some es => exact decide_eq_true (hscope es hes)
      · split
        · exact decide_eq_true hfz
        · rfl
  · show ensembleRemaining db false j = j.capacity
    rfl
  · unfold ensembleEligible ensembleStudentWhere
    rw [List.mem_filter]
    constructor
    · rintro ⟨hs, hw⟩
      rw [Bool.and_eq_true] at hw
      rcases hw with ⟨h1, _⟩
      refine ⟨hs, fun es hes => ?_⟩
      rw [hes] at h1
      exact of_decide_eq_true h1
    · rintro ⟨hs, hscope⟩
      refine ⟨hs, (Bool.and_eq_true _ _) ▸ (⟨?_, ?_⟩ : _ ∧ _)⟩
      · cases hes : emailsParam scope with
        | none => rfl
        | some es => exact decide_eq_true (hscope es hes)
      · rw [if_neg (fun hc => Bool.false_ne_true hc.2)]

/-! ## Claim C2: the empty-scope path -/

theorem emptyScopeShortCircuit_false (scope : Option (List String)) :
    emptyScopeShortCircuit scope = false := by
  by_cases h : (cleanScope scope).isEmpty
  · simp [emptyScopeShortCircuit, emailsParam, h]
  · simp [emptyScopeShortCircuit, emailsParam, h]

/-- Claim C2 concerns a branch the code can never take: the emails bind
parameter is only installed when the cleaned scope list is non-empty, so
the designated empty-scope short-circuit (insert an empty SUCCESS run
and stop) is unreachable in both entry points, and a call whose scope
list holds only blank entries instead allocates over every student:
on the concrete database it persists one match. -/
theorem claim_empty_scope_not_short_circuited :
    (∀ (db : DB) (scope : Option (List String)) (re : Bool) (w : Weights)
      (solver : (ℕ → ℕ → ℚ) → ℕ → List (ℕ × ℕ)),
        run_allocation db scope re w solver ≠ RunResult.emptyScopeNote) ∧
    (∀ (db : DB) (scope : Option (List String)) (re : Bool)
      (sw lw cw : Option ℚ) (m : Option String) (cfg0 : EnsembleConfig)
      (gloveOf : Student → Internship → ℚ × Components),
        (run_ensemble_allocation db scope re sw lw cw m cfg0 gloveOf).2 ≠
          RunResult.emptyScopeNote) ∧
    run_allocation exDB4 (some [""]) true defaultWeights idSolver =
      RunResult.persisted [(1, 10, 13/20)] := by
  refine ⟨?_, ?_, ?_⟩
  · intro db scope re w solver heq
    simp only [run_allocation, emptyScopeShortCircuit_false,
      Bool.false_eq_true, if_false] at heq
    split at heq
    · exact RunResult.noConfusion heq
    · split at heq
      · exact RunResult.noConfusion heq
      · exact RunResult.noConfusion heq
  · intro db scope re sw lw cw m cfg0 gloveOf heq
    simp only [run_ensemble_allocation, emptyScopeShortCircuit_false,
      Bool.false_eq_true, if_false] at heq
    split at heq
    · exact RunResult.noConfusion heq
    · split at heq
      · exact RunResult.noConfusion heq
      · exact RunResult.noConfusion heq
  · have htok : pyTokenSet "python" = {"python"} := by decide
    have hsc : scoreMatrix ⟨13/20, (5 : ℚ)⁻¹, 3/20⟩
        [⟨1, "a@x", none, "", "python"⟩]
        [⟨10, "", 1, "python", 0, true⟩] 0 0 = 13/20 := by
      simp +decide [scoreMatrix, pairScoreAlloc, cgOk, skillSignal,
        cgpaSignal, locSignal, jaccard, htok]
    have hpos : (0 : ℚ) < 13/20 := by norm_num
    simp +decide [run_allocation, emptyScopeShortCircuit, emailsParam,
      cleanScope, pyStrip, allocEligible, allocStudentWhere,
      frozenStudents, successMatches, usedByInternship, allocOpenJobs,
      activeJobs, allocRemaining, jobSlots, idSolver, extractAssigned,
      List.range_succ, extractStep, insertAssoc,
      exDB4, defaultWeights, defaultStudent, defaultJob]
    rw [hsc, if_pos hpos]
    norm_num [round4, round_eq]

/-! ## Claim C3: scores and the unit interval -/

/-- Membership in the closed unit interval. -/
def inUnit (x : ℚ) : Prop := 0 ≤ x ∧ x ≤ 1

theorem weighted_sum_unit (a b c x y z : ℚ) (ha : 0 ≤ a) (hb : 0 ≤ b)
    (hc : 0 ≤ c) (hsum : a + b + c ≤ 1) (hx : inUnit x) (hy : inUnit y)
    (hz : inUnit z) : inUnit (a * x + b * y + c * z) := by
  rcases hx with ⟨hx0, hx1⟩
  rcases hy with ⟨hy0, hy1⟩
  rcases hz with ⟨hz0, hz1⟩
  constructor
  · have h1 : 0 ≤ a * x := mul_nonneg ha hx0
    have h2 : 0 ≤ b * y := mul_nonneg hb hy0
    have h3 : 0 ≤ c * z := mul_nonneg hc hz0
    linarith
  · have h1 : a * x ≤ a := by nlinarith
    have h2 : b * y ≤ b := by nlinarith
    have h3 : c * z ≤ c := by nlinarith
    linarith

theorem norm_inUnit (x : Option ℚ) (lo hi : ℚ) : inUnit (norm x lo hi) := by
  cases x with
  | none => exact ⟨le_refl 0, zero_le_one⟩
  | some v =>
    by_cases he : hi = lo
    · simp only [norm, if_pos he]
      exact ⟨le_refl 0, zero_le_one⟩
    · simp only [norm, if_neg he]
      exact ⟨le_max_left 0 _, max_le zero_le_one (min_le_left 1 _)⟩

theorem jaccard_inUnit (a b : String) : inUnit (jaccard a b) :=
  ⟨jaccard_nonneg a b, jaccard_le_one a b⟩

theorem locSignal_inUnit (s : Student) (j : Internship) :
    inUnit (locSignal s j) := by
  unfold locSignal inUnit
  split <;> norm_num

theorem cgpaSignal_inUnit (s : Student) (j : Internship) :
    inUnit (cgpaSignal s j) := by
  unfold cgpaSignal
  split
  · exact norm_inUnit _ _ _
  · exact ⟨le_refl 0, zero_le_one⟩

theorem pairScoreAlloc_inUnit (w : Weights) (s : Student) (j : Internship)
    (hs : 0 ≤ w.skill) (hl : 0 ≤ w.location) (hc : 0 ≤ w.cgpa)
    (hsum : w.skill + w.location + w.cgpa ≤ 1) :
    inUnit (pairScoreAlloc w s j) := by
  unfold pairScoreAlloc
  split
  · exact weighted_sum_unit _ _ _ _ _ _ hs hl hc hsum
      (jaccard_inUnit _ _) (locSignal_inUnit s j) (cgpaSignal_inUnit s j)
  · exact ⟨le_refl 0, zero_le_one⟩

theorem round4_inUnit (x : ℚ) (h : inUnit x) : inUnit (round4 x) := by
  rcases h with ⟨h0, h1⟩
  unfold round4
  rw [round_eq]
  constructor
  · have hf : (0 : ℤ) ≤ ⌊x * 10000 + 1 / 2⌋ := by
      rw [Int.le_floor]
      push_cast
      linarith
    positivity
  · have hf : ⌊x * 10000 + 1 / 2⌋ ≤ 10000 := by
      have : ⌊x * 10000 + 1 / 2⌋ < 10001 := by
        rw [Int.floor_lt]
        push_cast
        linarith
      omega
    rw [div_le_one (by norm_num)]
    exact_mod_cast hf

theorem max_inUnit (x y : ℚ) (hx : inUnit x) (hy : inUnit y) :
    inUnit (max x y) :=
  ⟨le_max_of_le_left hx.1, max_le hx.2 hy.2⟩

theorem pick_inUnit (x y : ℚ) (hx : inUnit x) (hy : inUnit y) :
    inUnit (if y ≤ x then x else y) := by
  split
  · exact hx
  · exact hy

theorem ensembleFinalScore_inUnit (cfg : EnsembleConfig) (ts gs : ℚ)
    (tc gc : Components) (hts : inUnit ts) (hgs : inUnit gs)
    (htc1 : inUnit tc.skill_score) (htc2 : inUnit tc.location_score)
    (htc3 : inUnit tc.cgpa_score) (hgc1 : inUnit gc.skill_score)
    (hgc2 : inUnit gc.location_score) (hgc3 : inUnit gc.cgpa_score)
    (hws : 0 ≤ cfg.traditional_weights.skill)
    (hwl : 0 ≤ cfg.traditional_weights.location)
    (hwc : 0 ≤ cfg.traditional_weights.cgpa)
    (hwsum : cfg.traditional_weights.skill +
      cfg.traditional_weights.location + cfg.traditional_weights.cgpa ≤ 1)
    (hmT : 0 ≤ cfg.method_weight_traditional)
    (hmG : 0 ≤ cfg.method_weight_glove)
    (hmsum : cfg.method_weight_traditional + cfg.method_weight_glove ≤ 1) :
    inUnit (ensembleFinalScore cfg ts gs tc gc) := by
  unfold ensembleFinalScore
  split
  · exact max_inUnit ts gs hts hgs
  · split
    · exact weighted_sum_unit _ _ _ _ _ _ hws hwl hwc hwsum
        (pick_inUnit _ _ htc1 hgc1) (pick_inUnit _ _ htc2 hgc2)
        (pick_inUnit _ _ htc3 hgc3)
    · constructor
      · have h1 : 0 ≤ cfg.method_weight_traditional * ts :=
          mul_nonneg hmT hts.1
        have h2 : 0 ≤ cfg.method_weight_glove * gs := mul_nonneg hmG hgs.1
        linarith
      · have h1 : cfg.method_weight_traditional * ts ≤
            cfg.method_weight_traditional := by nlinarith [hts.1, hts.2]
        have h2 : cfg.method_weight_glove * gs ≤
            cfg.method_weight_glove := by nlinarith [hgs.1, hgs.2]
        linarith

/-- Counterexample to claim C3: the entry point accepts arbitrary
weights, and with skill weight 2 the run persists a final score of 2,
outside the unit interval. -/
theorem claim_score_unit_interval_counterexample :
    run_allocation exDB4 none true ⟨2, 0, 0⟩ idSolver =
      RunResult.persisted [(1, 10, 2)] ∧ ¬((2 : ℚ) ≤ 1) := by
  constructor
  · have htok : pyTokenSet "python" = {"python"} := by decide
    have hsc : scoreMatrix ⟨2, 0, 0⟩
        [⟨1, "a@x", none, "", "python"⟩]
        [⟨10, "", 1, "python", 0, true⟩] 0 0 = 2 := by
      simp +decide [scoreMatrix, pairScoreAlloc, cgOk, skillSignal,
        cgpaSignal, locSignal, jaccard, htok]
    have hpos : (0 : ℚ) < 2 := by norm_num
    simp +decide [run_allocation, emptyScopeShortCircuit, emailsParam,
      cleanScope, pyStrip, allocEligible, allocStudentWhere,
      frozenStudents, successMatches, usedByInternship, allocOpenJobs,
      activeJobs, allocRemaining, jobSlots, idSolver, extractAssigned,
      List.range_succ, extractStep, insertAssoc,
      exDB4, defaultStudent, defaultJob]
    rw [hsc, if_pos hpos]
    norm_num [round4, round_eq]
  · norm_num

/-- Claim C3 as amended: the unit-interval bound on every computed and
persisted score holds provided the caller-supplied signal weights are
nonnegative and sum to at most one (as the defaults do), and likewise
for the ensemble method weights; the entry points themselves never
validate the weights. -/
theorem claim_score_unit_interval_amended (w : Weights) (s : Student)
    (j : Internship) (cfg : EnsembleConfig) (ts gs : ℚ)
    (tc gc : Components)
    (hs : 0 ≤ w.skill) (hl : 0 ≤ w.location) (hc : 0 ≤ w.cgpa)
    (hsum : w.skill + w.location + w.cgpa ≤ 1)
    (hts : inUnit ts) (hgs : inUnit gs)
    (htc1 : inUnit tc.skill_score) (htc2 : inUnit tc.location_score)
    (htc3 : inUnit tc.cgpa_score) (hgc1 : inUnit gc.skill_score)
    (hgc2 : inUnit gc.location_score) (hgc3 : inUnit gc.cgpa_score)
    (hws : 0 ≤ cfg.traditional_weights.skill)
    (hwl : 0 ≤ cfg.traditional_weights.location)
    (hwc : 0 ≤ cfg.traditional_weights.cgpa)
    (hwsum : cfg.traditional_weights.skill +
      cfg.traditional_weights.location + cfg.traditional_weights.cgpa ≤ 1)
    (hmT : 0 ≤ cfg.method_weight_traditional)
    (hmG : 0 ≤ cfg.method_weight_glove)
    (hmsum : cfg.method_weight_traditional +
      cfg.method_weight_glove ≤ 1) :
    inUnit (pairScoreAlloc w s j) ∧
    inUnit (round4 (pairScoreAlloc w s j)) ∧
    inUnit (ensembleFinalScore cfg ts gs tc gc) ∧
    inUnit (round4 (ensembleFinalScore cfg ts gs tc gc)) := by
  have h1 := pairScoreAlloc_inUnit w s j hs hl hc hsum
  have h2 := ensembleFinalScore_inUnit cfg ts gs tc gc hts hgs htc1 htc2
    htc3 hgc1 hgc2 hgc3 hws hwl hwc hwsum hmT hmG hmsum
  exact ⟨h1, round4_inUnit _ h1, h2, round4_inUnit _ h2⟩

/-- Witness for the amended claim C3 at the default weights and a
concrete student, internship and component pair. -/
theorem claim_score_unit_interval_amended_witness :
    inUnit (pairScoreAlloc defaultWeights
      ⟨1, "a@x", none, "", "python"⟩ ⟨10, "", 1, "python", 0, true⟩) ∧
    inUnit (round4 (pairScoreAlloc defaultWeights
      ⟨1, "a@x", none, "", "python"⟩ ⟨10, "", 1, "python", 0, true⟩)) ∧
    inUnit (ensembleFinalScore initialEnsembleConfig (1/2) (3/4)
      ⟨1, 0, 0⟩ ⟨0, 1, 0⟩) ∧
    inUnit (round4 (ensembleFinalScore initialEnsembleConfig (1/2) (3/4)
      ⟨1, 0, 0⟩ ⟨0, 1, 0⟩)) :=
  claim_score_unit_interval_amended defaultWeights
    ⟨1, "a@x", none, "", "python"⟩ ⟨10, "", 1, "python", 0, true⟩
    initialEnsembleConfig (1/2) (3/4) ⟨1, 0, 0⟩ ⟨0, 1, 0⟩
    (by norm_num [defaultWeights]) (by norm_num [defaultWeights])
    (by norm_num [defaultWeights]) (by norm_num [defaultWeights])
    (by norm_num [inUnit]) (by norm_num [inUnit])
    (by norm_num [inUnit]) (by norm_num [inUnit]) (by norm_num [inUnit])
    (by norm_num [inUnit]) (by norm_num [inUnit]) (by norm_num [inUnit])
    (by norm_num [initialEnsembleConfig, defaultWeights])
    (by norm_num [initialEnsembleConfig, defaultWeights])
    (by norm_num [initialEnsembleConfig, defaultWeights])
    (by norm_num [initialEnsembleConfig, defaultWeights])
    (by norm_num [initialEnsembleConfig])
    (by norm_num [initialEnsembleConfig])
    (by norm_num [initialEnsembleConfig])

/-! ## Claim C6: validation floors -/

/-- One student whose skill text shares one of ten tokens with the
single open internship, giving a pair score of 0.065. -/
def exDB6 : DB :=
  ⟨[⟨1, "a@x", none, "", "python a b c d e f g h i"⟩],
   [⟨10, "", 1, "python", 0, true⟩], [], []⟩

/-- Counterexample to claim C6: the Hungarian path applies no
validation floors at all; on exDB6 it persists a match whose final
score 0.065 is below the global 0.2 threshold and whose skill component
0.1 is below the 0.15 skill floor. -/
theorem claim_floors_counterexample :
    run_allocation exDB6 none true defaultWeights idSolver =
      RunResult.persisted [(1, 10, 13/200)] ∧
    (13/200 : ℚ) < 1/5 ∧
    skillSignal ⟨1, "a@x", none, "", "python a b c d e f g h i"⟩
      ⟨10, "", 1, "python", 0, true⟩ = 1/10 ∧ (1/10 : ℚ) < 3/20 := by
  have htok : pyTokenSet "python a b c d e f g h i" =
      {"python", "a", "b", "c", "d", "e", "f", "g", "h", "i"} := by decide
  have htok2 : pyTokenSet "python" = {"python"} := by decide
  have hjac : jaccard "python a b c d e f g h i" "python" = 1/10 := by
    have hi : (({"python", "a", "b", "c", "d", "e", "f", "g", "h", "i"} :
        Finset String) ∩ {"python"}).card = 1 := by decide
    have hu : (({"python", "a", "b", "c", "d", "e", "f", "g", "h", "i"} :
        Finset String) ∪ {"python"}).card = 10 := by decide
    rw [jaccard, if_neg (by decide), htok, htok2, if_neg (by decide),
      hi, hu]
    norm_num
  refine ⟨?_, by norm_num, hjac, by norm_num⟩
  have hsc : scoreMatrix ⟨13/20, (5 : ℚ)⁻¹, 3/20⟩
      [⟨1, "a@x", none, "", "python a b c d e f g h i"⟩]
      [⟨10, "", 1, "python", 0, true⟩] 0 0 = 13/200 := by
    simp +decide [scoreMatrix, pairScoreAlloc, cgOk, skillSignal,
      cgpaSignal, locSignal, hjac]
    norm_num
  have hpos : (0 : ℚ) < 13/200 := by norm_num
  simp +decide [run_allocation, emptyScopeShortCircuit, emailsParam,
    cleanScope, pyStrip, allocEligible, allocStudentWhere,
    frozenStudents, successMatches, usedByInternship, allocOpenJobs,
    activeJobs, allocRemaining, jobSlots, idSolver, extractAssigned,
    List.range_succ, extractStep, insertAssoc,
    exDB6, defaultWeights, defaultStudent, defaultJob]
  rw [hsc, if_pos hpos]
  norm_num [round4, round_eq]

theorem mem_greedy_fold {α : Type} (pairs : List (ℚ × ℕ × ℕ × α)) :
    ∀ (st : List (ℕ × ℕ × ℚ × α) × (ℕ → ℕ)) (e : ℕ × ℕ × ℚ × α),
      e ∈ (pairs.foldl greedyStep st).1 →
      e ∈ st.1 ∨ ∃ p ∈ pairs, e = (p.2.1, p.2.2.1, p.1, p.2.2.2) := by
  induction pairs with
  | nil => exact fun st e he => Or.inl he
  | cons q rest ih =>
    intro st e he
    rcases ih (greedyStep st q) e he with h | h
    · rcases greedyStep_fst st q with heq | ⟨heq, _⟩
      · rw [heq] at h
        exact Or.inl h
      · rw [heq] at h
        rcases List.mem_append.mp h with h1 | h1
        · exact Or.inl h1
        · exact Or.inr ⟨q, List.mem_cons_self q rest,
            List.mem_singleton.mp h1⟩
    · rcases h with ⟨p, hp, he2⟩
      exact Or.inr ⟨p, List.mem_cons_of_mem q hp, he2⟩

theorem validate_match_floors (cfg : EnsembleConfig) (gc : Components)
    (hval : cfg.validation_enabled = true)
    (h : validate_match cfg gc = true) :
    cfg.min_skill_match ≤ gc.skill_score ∧
      cfg.min_location_match ≤ gc.location_score := by
  unfold validate_match at h
  rw [if_neg (by simp [hval])] at h
  split at h
  · exact absurd h Bool.false_ne_true
  · split at h
    · exact absurd h Bool.false_ne_true
    · next h1 h2 => exact ⟨le_of_not_lt h1, le_of_not_lt h2⟩

theorem ensemblePairs_floors (cfg : EnsembleConfig)
    (gloveOf : Student → Internship → ℚ × Components) (db : DB)
    (scope : Option (List String)) (re : Bool)
    (x : ℚ × ℕ × ℕ × Components)
    (hx : x ∈ ensemblePairs cfg gloveOf db scope re)
    (hval : cfg.validation_enabled = true) :
    cfg.min_score_threshold ≤ x.1 ∧
    cfg.min_skill_match ≤ x.2.2.2.skill_score ∧
    cfg.min_location_match ≤ x.2.2.2.location_score := by
  unfold ensemblePairs at hx
  rcases List.mem_flatten.mp hx with ⟨blk, hblk, hxblk⟩
  rcases List.mem_map.mp hblk with ⟨s, _, hsblk⟩
  rw [← hsblk] at hxblk
  rcases List.mem_filterMap.mp hxblk with ⟨j, _, hjx⟩
  simp only at hjx
  split at hjx
  · split at hjx
    · exact absurd hjx (by simp)
    · split at hjx
      · next hthr hvld =>
        have hx2 := Option.some.inj hjx
        rw [← hx2]
        have hfl := validate_match_floors cfg (gloveOf s j).2 hval hvld
        exact ⟨le_of_not_lt hthr, hfl.1, hfl.2⟩
      · exact absurd hjx (by simp)
  · exact absurd hjx (by simp)

/-- Claim C6 as amended: in the ensemble path every pair surviving to
the greedy solver, and hence every persisted match, has a final score
at least the global minimum threshold and glove-side skill and location
components at least their configured floors (when validation is
enabled); the plain Hungarian path applies no floors at all and only
discards non-positive scores. -/
theorem claim_floors_amended (cfg : EnsembleConfig)
    (gloveOf : Student → Internship → ℚ × Components) (db : DB)
    (scope : Option (List String)) (re : Bool)
    (hval : cfg.validation_enabled = true) (e : ℕ × ℕ × ℚ × Components)
    (he : e ∈ greedyAlloc (List.insertionSort (fun a b => b.1 ≤ a.1)
      (ensemblePairs cfg gloveOf db scope re)) (ensembleRem0 db re))
    (S J : ℕ) (score : ℕ → ℕ → ℚ) (sidOf jidOf : ℕ → ℕ)
    (pairs : List (ℕ × ℕ)) (e2 : ℕ × ℕ × ℚ)
    (he2 : e2 ∈ extractAssigned S J score sidOf jidOf pairs) :
    (cfg.min_score_threshold ≤ e.2.2.1 ∧
      cfg.min_skill_match ≤ e.2.2.2.skill_score ∧
      cfg.min_location_match ≤ e.2.2.2.location_score) ∧
    0 < e2.2.2 := by
  constructor
  · rcases mem_greedy_fold _ ([], ensembleRem0 db re) e he with h | h
    · exact absurd h (List.not_mem_nil e)
    · rcases h with ⟨p, hp, hpe⟩
      have hp2 : p ∈ ensemblePairs cfg gloveOf db scope re :=
        (List.perm_insertionSort _ _).mem_iff.mp hp
      have hfl := ensemblePairs_floors cfg gloveOf db scope re p hp2 hval
      rw [hpe]
      exact ⟨hfl.1, hfl.2.1, hfl.2.2⟩
  · rcases mem_extract_fold S J score sidOf jidOf pairs [] e2 he2 with
      h | h
    · rcases h with ⟨p, _, _, _, hpos, hpe⟩
      rw [hpe]
      exact hpos
    · exact absurd h (List.not_mem_nil e2)

/-- Witness for the amended claim C6: a concrete ensemble run whose
single surviving pair meets every floor, and a concrete extraction with
a positive-score pair. -/
theorem claim_floors_amended_witness :
    ((initialEnsembleConfig.min_score_threshold ≤ (43 : ℚ)/50 ∧
      initialEnsembleConfig.min_skill_match ≤ (1 : ℚ) ∧
      initialEnsembleConfig.min_location_match ≤ (1 : ℚ)) ∧
      (0 : ℚ) < 1) := by
  have htok2 : pyTokenSet "python" = {"python"} := by decide
  have htrad : traditional_score ⟨13/20, (5:ℚ)⁻¹, 3/20⟩ "python" "python"
      "" "" 0 0 = (13/20, ⟨1, 0, 0⟩) := by
    simp +decide [traditional_score, jaccard, htok2]
    norm_num [round4, round_eq]
  have hfs : ensembleFinalScore
      ⟨"weighted", 2/5, 3/5, (5:ℚ)⁻¹, ⟨13/20, (5:ℚ)⁻¹, 3/20⟩,
        ⟨13/20, (5:ℚ)⁻¹, 3/20⟩, true, 3/20, 0⟩ (13/20) 1
      ⟨1, 0, 0⟩ ⟨1, 1, 1⟩ = 43/50 := by
    simp +decide [ensembleFinalScore]
    norm_num
  have hnlt : ¬((43:ℚ)/50 < (5:ℚ)⁻¹) := by norm_num
  have hv1 : ¬((1:ℚ) < 3/20) := by norm_num
  have hv2 : ¬((1:ℚ) < 0) := by norm_num
  have hep : ensemblePairs initialEnsembleConfig
      (fun _ _ => (1, ⟨1, 1, 1⟩)) exDB4 none true =
      [(43/50, 1, 10, ⟨1, 1, 1⟩)] := by
    simp +decide [ensemblePairs, ensembleEligible, ensembleStudentWhere,
      ensembleFrozen, frozenStudents, successMatches, ensembleOpenJobs,
      activeJobs, ensembleRemaining, ensembleUsed, usedByInternship,
      emailsParam, cleanScope, pyStrip, cgOk, htrad, hfs, hnlt,
      validate_match, hv1, hv2, initialEnsembleConfig, defaultWeights,
      exDB4, List.filterMap_cons, List.filterMap_nil]
  have hrem : ensembleRem0 exDB4 true 10 = 1 := by decide
  have he : ((1 : ℕ), (10 : ℕ), (43:ℚ)/50,
      (⟨1, 1, 1⟩ : Components)) ∈ greedyAlloc
      (List.insertionSort (fun a b => b.1 ≤ a.1)
        (ensemblePairs initialEnsembleConfig
          (fun _ _ => (1, ⟨1, 1, 1⟩)) exDB4 none true))
      (ensembleRem0 exDB4 true) := by
    rw [hep]
    simp [greedyAlloc, greedyStep, List.insertionSort,
      List.orderedInsert, hrem]
  have he2 : ((0 : ℕ), (0 : ℕ), (1 : ℚ)) ∈
      extractAssigned 1 1 (fun _ _ => (1 : ℚ)) (fun i => i) (fun j => j)
      [(0, 0)] := by
    simp [extractAssigned, extractStep, insertAssoc]
  exact claim_floors_amended initialEnsembleConfig
    (fun _ _ => (1, ⟨1, 1, 1⟩)) exDB4 none true rfl
    (1, 10, 43/50, ⟨1, 1, 1⟩) he 1 1 (fun _ _ => 1) (fun i => i)
    (fun j => j) [(0, 0)] (0, 0, 1) he2

/-! ## Claim C8: the voting combination -/

/-- Claim C8: with the voting strategy, the ensemble final score is the
weighted sum, under the traditional scorer weights stored in the
configuration, of the per-signal maxima of the two component
breakdowns. -/
theorem claim_voting_is_weighted_signal_maxima (cfg : EnsembleConfig)
    (ts gs : ℚ) (tc gc : Components) :
    ensembleFinalScore { cfg with ensemble_method := "voting" } ts gs tc gc =
      cfg.traditional_weights.skill * max tc.skill_score gc.skill_score +
        cfg.traditional_weights.location *
          max tc.location_score gc.location_score +
        cfg.traditional_weights.cgpa * max tc.cgpa_score gc.cgpa_score := by
  show (if ("voting" : String) = "max_score" then _ else _) = _
  rw [if_neg (by decide), if_pos rfl]
  rw [max_comm tc.skill_score, max_comm tc.location_score,
    max_comm tc.cgpa_score, max_def, max_def, max_def]

/-! ## Claim C9: in-place mutation of the global configuration -/

/-- Claim C9: calling the ensemble entry point with explicit weights and
method rewrites the process-global configuration, and a later invocation
that omits every parameter proceeds with exactly that rewritten state,
not with the defaults. -/
theorem claim_config_mutation_persists (db db2 : DB)
    (scope scope2 : Option (List String)) (re re2 : Bool)
    (sw lw cw : ℚ) (m : String) (cfg0 : EnsembleConfig)
    (g g2 : Student → Internship → ℚ × Components) :
    (run_ensemble_allocation db scope re (some sw) (some lw) (some cw)
        (some m) cfg0 g).1.traditional_weights = ⟨sw, lw, cw⟩ ∧
    (run_ensemble_allocation db scope re (some sw) (some lw) (some cw)
        (some m) cfg0 g).1.glove_weights = ⟨sw, lw, cw⟩ ∧
    (run_ensemble_allocation db scope re (some sw) (some lw) (some cw)
        (some m) cfg0 g).1.ensemble_method = m ∧
    (run_ensemble_allocation db2 scope2 re2 none none none none
        (run_ensemble_allocation db scope re (some sw) (some lw) (some cw)
          (some m) cfg0 g).1 g2).1 =
      (run_ensemble_allocation db scope re (some sw) (some lw) (some cw)
        (some m) cfg0 g).1 := by
  have hfst : ∀ (db : DB) scope re sw lw cw m cfg0 g,
      (run_ensemble_allocation db scope re sw lw cw m cfg0 g).1 =
        applyParamUpdates cfg0 sw lw cw m := by
    intro db scope re sw lw cw m cfg0 g
    unfold run_ensemble_allocation
    split
    · rfl
    · split
      · rfl
      · split
        · rfl
        · rfl
  rw [hfst, hfst]
  refine ⟨rfl, rfl, rfl, rfl⟩

end SIH
